import Mathlib

/-!
Verification development for the agentic GraphRAG system.

The definitions below are a shallow embedding of the Python sources:
  - src/agent/tools.py    (CalculatorTool, GraphQueryTool, WebSearchTool)
  - src/agent/graphrag.py (vector_search, graph_traversal, hybrid_retrieval,
                           _build_context)
  - src/agent/agent.py    (AgenticAI: _agent_node, _should_continue,
                           _build_graph loop, query)

Machine reals (Python floats) are modelled as exact rationals; Neo4j
property values are modelled by the inductive type PVal; Python `eval`
restricted to the sanitized arithmetic alphabet is modelled by a total
recursive-descent evaluator returning Except.
-/

/-- Property values stored on a graph node.  Models the Python/Neo4j value
space actually used by the repository: strings, numbers (floats modelled
exactly as rationals), embedding vectors (lists of numbers) and null. -/
inductive PVal where
  | str (s : String)
  | num (q : ℚ)
  | vec (v : List ℚ)
  | null
deriving DecidableEq

/-- Python truthiness of a property value: empty string, zero, empty list
and None are falsy, everything else truthy. -/
def PVal.truthy : PVal → Bool
  | .str s => !(s = "")
  | .num q => !(q = 0)
  | .vec v => !(v = [])
  | .null => false

/-- A graph node's flat property mapping (a Python dict, insertion-ordered,
keys unique), as produced by `dict(node)` on a Neo4j node object. -/
abbrev NList := List (String × PVal)

/-- Python `key in node`. -/
def nodeHasKey (nd : NList) (k : String) : Bool :=
  (nd : List (String × PVal)).any (fun p => p.1 = k)

/-- Python `node.get(key)` returning the first binding if present. -/
def nodeGet (nd : NList) (k : String) : Option PVal :=
  ((nd : List (String × PVal)).find? (fun p => p.1 = k)).map (·.2)

/-- Python `node.get(key)` with None for a missing key. -/
def nodeGetD (nd : NList) (k : String) : PVal :=
  (nodeGet nd k).getD .null

/- ===================================================================
   CalculatorTool (src/agent/tools.py lines 89-97)
   =================================================================== -/

/-- Characters kept by the sanitizer regex `[^0-9+\-*/().\s]` of
CalculatorTool._run: digits, the four operators, parentheses, dot and
whitespace (Python \s on ASCII input: space, tab, newline, CR, VT, FF). -/
def allowedChar (c : Char) : Bool :=
  c.isDigit || c = '+' || c = '-' || c = '*' || c = '/' ||
  c = '(' || c = ')' || c = '.' ||
  c = ' ' || c = '\t' || c = '\n' || c = '\r' || c = '\x0b' || c = '\x0c'

/-- The sanitizer `re.sub(r'[^0-9+\-*/().\s]', '', expression)`: delete
every character outside the allowed set. -/
def sanitize (expression : String) : String :=
  (expression.toList.filter allowedChar).asString

/-- Tokens of the arithmetic language reachable after sanitization. -/
inductive Tok where
  | num (q : ℚ)
  | add | sub | mul | div | floordiv | pow
  | lparen | rparen
deriving DecidableEq

/-- Numeric value of a digit run. -/
def digitsVal (cs : List Char) : ℕ :=
  cs.foldl (fun n c => 10 * n + (c.toNat - '0'.toNat)) 0

/-- Value of a Python numeric literal made of digits and at most one dot
(e.g. "12", "1.5", ".5", "5.").  Callers have already validated the shape. -/
def numLitVal (run : List Char) : ℚ :=
  let ipart := run.takeWhile Char.isDigit
  let rest := run.drop ipart.length
  let fpart := rest.drop 1
  (digitsVal ipart : ℚ) + (digitsVal fpart : ℚ) / ((10 : ℚ) ^ fpart.length)

/-- Valid numeric literal: at least one digit, at most one dot. -/
def numLitOk (run : List Char) : Bool :=
  run.any Char.isDigit && (run.countP (fun c => c = '.') ≤ 1)

/-- Lexer over the sanitized alphabet.  Fuel-indexed; `lexToks` always
receives enough fuel (one unit per input character). -/
def lexToksF : ℕ → List Char → Except String (List Tok)
  | 0, _ => .error "lexer out of fuel"
  | _, [] => .ok []
  | f + 1, c :: cs =>
    if c = ' ' || c = '\t' || c = '\n' || c = '\r' || c = '\x0b' || c = '\x0c' then
      lexToksF f cs
    else if c = '+' then (lexToksF f cs).map (Tok.add :: ·)
    else if c = '-' then (lexToksF f cs).map (Tok.sub :: ·)
    else if c = '(' then (lexToksF f cs).map (Tok.lparen :: ·)
    else if c = ')' then (lexToksF f cs).map (Tok.rparen :: ·)
    else if c = '*' then
      match cs with
      | '*' :: cs2 => (lexToksF f cs2).map (Tok.pow :: ·)
      | _ => (lexToksF f cs).map (Tok.mul :: ·)
    else if c = '/' then
      match cs with
      | '/' :: cs2 => (lexToksF f cs2).map (Tok.floordiv :: ·)
      | _ => (lexToksF f cs).map (Tok.div :: ·)
    else if c.isDigit || c = '.' then
      let run := (c :: cs).takeWhile (fun d => d.isDigit || d = '.')
      let rest := (c :: cs).drop run.length
      if numLitOk run then (lexToksF f rest).map (Tok.num (numLitVal run) :: ·)
      else .error "invalid number literal"
    else .error "unexpected character"

/-- Lex a character list with sufficient fuel. -/
def lexToks (cs : List Char) : Except String (List Tok) :=
  lexToksF (cs.length + 1) cs

/-- Python `**` on rationals: only integer exponents stay rational; the
model rejects fractional exponents (Python would produce a float there,
which no claim exercises).  `0 ** negative` raises in Python. -/
def powQ (b e : ℚ) : Except String ℚ :=
  if e.den = 1 then
    if b = 0 ∧ e.num < 0 then .error "zero to a negative power"
    else .ok (b ^ e.num)
  else .error "non-integer exponent not supported"

mutual

/-- Additive expression: term (('+'|'-') term)*, left associative. -/
def parseE : ℕ → List Tok → Except String (ℚ × List Tok)
  | 0, _ => .error "parser out of fuel"
  | f + 1, ts =>
    match parseT f ts with
    | .error e => .error e
    | .ok (v, ts1) => parseEL f v ts1

/-- Loop of the additive level, carrying the left accumulator. -/
def parseEL : ℕ → ℚ → List Tok → Except String (ℚ × List Tok)
  | 0, _, _ => .error "parser out of fuel"
  | f + 1, acc, ts =>
    match ts with
    | .add :: rest =>
      match parseT f rest with
      | .error e => .error e
      | .ok (v, ts2) => parseEL f (acc + v) ts2
    | .sub :: rest =>
      match parseT f rest with
      | .error e => .error e
      | .ok (v, ts2) => parseEL f (acc - v) ts2
    | _ => .ok (acc, ts)

/-- Multiplicative expression: unary (('*'|'/'|'//') unary)*. -/
def parseT : ℕ → List Tok → Except String (ℚ × List Tok)
  | 0, _ => .error "parser out of fuel"
  | f + 1, ts =>
    match parseU f ts with
    | .error e => .error e
    | .ok (v, ts1) => parseTL f v ts1

/-- Loop of the multiplicative level.  True division and floor division
by zero raise ZeroDivisionError in Python, modelled as errors. -/
def parseTL : ℕ → ℚ → List Tok → Except String (ℚ × List Tok)
  | 0, _, _ => .error "parser out of fuel"
  | f + 1, acc, ts =>
    match ts with
    | .mul :: rest =>
      match parseU f rest with
      | .error e => .error e
      | .ok (v, ts2) => parseTL f (acc * v) ts2
    | .div :: rest =>
      match parseU f rest with
      | .error e => .error e
      | .ok (v, ts2) =>
        if v = 0 then .error "division by zero" else parseTL f (acc / v) ts2
    | .floordiv :: rest =>
      match parseU f rest with
      | .error e => .error e
      | .ok (v, ts2) =>
        if v = 0 then .error "integer division or modulo by zero"
        else parseTL f ((⌊acc / v⌋ : ℤ) : ℚ) ts2
    | _ => .ok (acc, ts)

/-- Unary level: ('+'|'-')* power, with unary minus binding looser than
`**` on its right (Python: -2**2 = -(2**2)). -/
def parseU : ℕ → List Tok → Except String (ℚ × List Tok)
  | 0, _ => .error "parser out of fuel"
  | f + 1, ts =>
    match ts with
    | .sub :: rest =>
      match parseU f rest with
      | .error e => .error e
      | .ok (v, ts1) => .ok (-v, ts1)
    | .add :: rest => parseU f rest
    | _ => parseP f ts

/-- Power level: atom ['**' unary], right associative, exponent may carry
its own unary sign (Python: 2**-3 is legal). -/
def parseP : ℕ → List Tok → Except String (ℚ × List Tok)
  | 0, _ => .error "parser out of fuel"
  | f + 1, ts =>
    match parseA f ts with
    | .error e => .error e
    | .ok (b, ts1) =>
      match ts1 with
      | .pow :: rest =>
        match parseU f rest with
        | .error e => .error e
        | .ok (e, ts2) =>
          match powQ b e with
          | .error m => .error m
          | .ok v => .ok (v, ts2)
      | _ => .ok (b, ts1)

/-- Atom: numeric literal or parenthesized expression. -/
def parseA : ℕ → List Tok → Except String (ℚ × List Tok)
  | 0, _ => .error "parser out of fuel"
  | f + 1, ts =>
    match ts with
    | .num q :: rest => .ok (q, rest)
    | .lparen :: rest =>
      match parseE f rest with
      | .error e => .error e
      | .ok (v, ts1) =>
        match ts1 with
        | .rparen :: ts2 => .ok (v, ts2)
        | _ => .error "expected closing parenthesis"
    | _ => .error "invalid syntax"

end

/-- Python `eval` restricted to the sanitized arithmetic alphabet: lex,
parse the full token stream as one expression, evaluate.  Every failure
(malformed expression, division by zero) is an `.error`, modelling the
exception Python would raise. -/
def evalArith (s : String) : Except String ℚ :=
  match lexToks s.toList with
  | .error e => .error e
  | .ok ts =>
    match parseE (8 * ts.length + 8) ts with
    | .ok (v, []) => .ok v
    | .ok (_, _ :: _) => .error "invalid syntax"
    | .error e => .error e

/-- CalculatorTool._run: sanitize then evaluate inside try/except; a
success renders "Result: ...", any exception is converted to the uniform
"Error calculating: ..." text. -/
def calculator_run (expression : String) : String :=
  match evalArith (sanitize expression) with
  | .ok v => "Result: " ++ toString v
  | .error m => "Error calculating: " ++ m

/- ===================================================================
   SimilarityRanker: vector_search (src/agent/graphrag.py lines 26-74)
   =================================================================== -/

/-- A value bound to a variable of a Neo4j record: either node-shaped
(convertible to a flat property dict, the `hasattr(value, 'items')` /
`isinstance(value, dict)` cases) or anything else (paths, scalars),
which the code skips. -/
inductive RecVal where
  | node (nd : NList)
  | other
deriving DecidableEq

/-- Dot product of two equal-length rational vectors (np.dot). -/
def dotQ (a b : List ℚ) : ℚ :=
  (List.zipWith (· * ·) a b).sum

/-- One entry of the list vector_search builds: the node dict together
with the data determining its stored similarity
`dot / (norm_query * norm_node)`: the dot product `d` against the query
and the squared node norm `nn`.  `idx` is the candidate's encounter
position, used to express the tie-breaking of the stable sort. -/
structure VCand where
  idx : ℕ
  node : NList
  d : ℚ
  nn : ℚ
deriving DecidableEq

/-- Extract from a record's "n" binding a node dict together with a
usable embedding vector.  Mirrors lines 44-60: non-node bindings are
skipped; `if "embedding" in node and node["embedding"]` skips missing or
falsy embeddings; a non-vector value or a length mismatch with the query
makes NumPy raise inside the try, which also skips the candidate. -/
def recNodeEmb (qv : List ℚ) : RecVal → Option (NList × List ℚ)
  | .node nd =>
    match nodeGet nd "embedding" with
    | some (.vec v) =>
      if v ≠ [] ∧ v.length = qv.length then some (nd, v) else none
    | some _ => none
    | none => none
  | .other => none

/-- The keep condition of the loop body: a usable embedding and
`norm_query > 0 and norm_node > 0` (a Euclidean norm is positive exactly
when the squared norm, i.e. the self dot product, is positive). -/
def goodB (qv : List ℚ) (r : RecVal) : Bool :=
  match recNodeEmb qv r with
  | some (_, v) => decide (0 < dotQ qv qv) && decide (0 < dotQ v v)
  | none => false

/-- Build the result entry for a kept candidate (junk defaults are never
reached: `candOf` is only applied under a `goodB` filter). -/
def candOf (qv : List ℚ) (p : ℕ × RecVal) : VCand :=
  match recNodeEmb qv p.2 with
  | some (nd, v) => ⟨p.1, nd, dotQ qv v, dotQ v v⟩
  | none => ⟨p.1, [], 0, 0⟩

/-- The filtered candidate list, in encounter order, before sorting. -/
def candidates (qv : List ℚ) (recs : List RecVal) : List VCand :=
  ((recs.enum).filter (fun p => goodB qv p.2)).map (candOf qv)

/-- Decidable comparison `d1/sqrt n1 ≥ d2/sqrt n2` for positive n1, n2,
via signs and squares (the real-number bridge is proved below as
`geSimB_iff`).  This is how the model decides the descending similarity
order that `results.sort(key=..., reverse=True)` computes on floats. -/
def geSimB (d1 n1 d2 n2 : ℚ) : Bool :=
  if 0 ≤ d1 then
    if d2 ≤ 0 then true else decide (d2 ^ 2 * n1 ≤ d1 ^ 2 * n2)
  else
    if 0 ≤ d2 then false else decide (d1 ^ 2 * n2 ≤ d2 ^ 2 * n1)

/-- Total order used for sorting candidates: descending by similarity,
ties broken by encounter index.  A stable descending sort (Python's
Timsort with reverse=True, which keeps equal-key elements in input
order) sorts a distinct-index list exactly by this lexicographic key. -/
def ordB (a b : VCand) : Bool :=
  if geSimB a.d a.nn b.d b.nn && geSimB b.d b.nn a.d a.nn then
    decide (a.idx ≤ b.idx)
  else geSimB a.d a.nn b.d b.nn

/-- Ordered insertion of `x` after every element already ordered before
it (stable). -/
def insD {α : Type} (r : α → α → Bool) (x : α) : List α → List α
  | [] => [x]
  | y :: ys => if r y x then y :: insD r x ys else x :: y :: ys

/-- Insertion sort processing the input left to right. -/
def sortD {α : Type} (r : α → α → Bool) (l : List α) : List α :=
  l.foldl (fun acc x => insD r x acc) []

/-- vector_search: filter the fetched records, sort by descending cosine
similarity (stable in encounter order), return the first top_k. -/
def vector_search (qv : List ℚ) (recs : List RecVal) (top_k : ℕ) : List VCand :=
  (sortD ordB (candidates qv recs)).take top_k

/-- The real cosine similarity the code stores for a kept candidate:
`dot_product / (norm_query * norm_node)` with NumPy's Euclidean norms. -/
noncomputable def simR (qv : List ℚ) (c : VCand) : ℝ :=
  (c.d : ℝ) / (Real.sqrt ((dotQ qv qv : ℚ) : ℝ) * Real.sqrt ((c.nn : ℚ) : ℝ))

/- ===================================================================
   TraversalRouter: graph_traversal (src/agent/graphrag.py lines 76-131)
   =================================================================== -/

/-- The fixed enumeration of traversal patterns. -/
inductive Pattern where
  | actorRole | directorRole | genreMembership | filmOverview
  | serieOverview | collaboration | genericSubgraph
deriving DecidableEq

/-- Does `pat` occur as a contiguous sublist of `hay`?  Models Python's
`in` on strings. -/
def containsSub : List Char → List Char → Bool
  | _, [] => false
  | pat, c :: cs => pat.isPrefixOf (c :: cs) || containsSub pat cs

/-- Python `pattern in text` (empty pattern is always in). -/
def strContains (text pat : String) : Bool :=
  pat.toList.isEmpty || containsSub pat.toList text.toList

/-- Python str.lower() restricted to ASCII letters; the accented keyword
characters used by the source are already lowercase and are untouched by
both Python and this model. -/
def lowerAscii (s : String) : String :=
  (s.toList.map Char.toLower).asString

/-- The case-insensitive first-match keyword scan of graph_traversal. -/
def classify (query : String) : Pattern :=
  let ql := lowerAscii query
  if strContains ql "act" || strContains ql "actor" ||
     strContains ql "played" || strContains ql "joué" then .actorRole
  else if strContains ql "direct" || strContains ql "director" ||
          strContains ql "réalisé" then .directorRole
  else if strContains ql "genre" || strContains ql "type" then .genreMembership
  else if strContains ql "film" || strContains ql "movie" then .filmOverview
  else if strContains ql "serie" || strContains ql "series" ||
          strContains ql "show" then .serieOverview
  else if strContains ql "worked" || strContains ql "together" ||
          strContains ql "collabor" then .collaboration
  else .genericSubgraph

/-- The Cypher template attached to each pattern (the literal strings of
graph_traversal, whitespace normalized to one line per clause). -/
def patternCypher : Pattern → String
  | .actorRole =>
    "MATCH (a:Actor)-[:JOUE_DANS]->(content) RETURN a, content LIMIT 20"
  | .directorRole =>
    "MATCH (d:Director)-[:REALISE]->(content) RETURN d, content LIMIT 20"
  | .genreMembership =>
    "MATCH (content)-[:APPARTIENT_A_GENRE]->(g:Genre) RETURN content, g LIMIT 20"
  | .filmOverview =>
    "MATCH (f:Film) OPTIONAL MATCH (a:Actor)-[:JOUE_DANS]->(f) OPTIONAL MATCH (d:Director)-[:REALISE]->(f) RETURN f, a, d LIMIT 20"
  | .serieOverview =>
    "MATCH (s:Serie) OPTIONAL MATCH (a:Actor)-[:JOUE_DANS]->(s) OPTIONAL MATCH (d:Director)-[:REALISE]->(s) RETURN s, a, d LIMIT 20"
  | .collaboration =>
    "MATCH (a1:Actor)-[:A_JOUÉ_AVEC]->(a2:Actor) RETURN a1, a2 LIMIT 20"
  | .genericSubgraph =>
    "MATCH path = (start)-[*1..2]-(connected) WHERE start.name CONTAINS $query OR connected.name CONTAINS $query RETURN path LIMIT 20"

/-- graph_traversal issues the template selected by `classify`; only the
generic fallback passes the raw query as a parameter. -/
def graph_traversal_query (query : String) : String × Option String :=
  match classify query with
  | .genericSubgraph => (patternCypher .genericSubgraph, some query)
  | p => (patternCypher p, none)

/- ===================================================================
   ContextFuser: hybrid_retrieval fusion (graphrag.py lines 142-190)
   and _build_context (lines 192-225)
   =================================================================== -/

/-- Provenance label of a fused entry. -/
inductive Source where
  | vector | traversal
deriving DecidableEq

/-- One value of the `context_nodes` dict: the node, the stored
similarity (the vector score, or the fixed traversal default 0.5) and
the source label. -/
structure Entry where
  node : NList
  similarity : ℚ
  source : Source
deriving DecidableEq

/-- One element of the list vector_search hands to hybrid_retrieval: the
dict {"n": node, "similarity": score}. -/
structure VResult where
  n : RecVal
  similarity : ℚ
deriving DecidableEq

/-- The fused map is a Python dict: an insertion-ordered association
list with unique keys; keys are the node identity values. -/
abbrev FuseMap := List (PVal × Entry)

/-- Python `key in dict`. -/
def fmHasKey (m : FuseMap) (k : PVal) : Bool :=
  (m : List (PVal × Entry)).any (fun p => p.1 = k)

/-- Python `dict[key] = entry`: replace in place if the key exists
(keeping its position), otherwise append. -/
def fmSet (m : FuseMap) (k : PVal) (e : Entry) : FuseMap :=
  if fmHasKey m k then
    (m : List (PVal × Entry)).map (fun p => if p.1 = k then (k, e) else p)
  else (m : List (PVal × Entry)) ++ [(k, e)]

/-- Number of bindings of key `k`. -/
def fmCount (m : FuseMap) (k : PVal) : ℕ :=
  (m : List (PVal × Entry)).countP (fun p => decide (p.1 = k))

/-- Python dict lookup (first binding; keys are unique). -/
def fmGet (m : FuseMap) (k : PVal) : Option Entry :=
  ((m : List (PVal × Entry)).find? (fun p => decide (p.1 = k))).map (·.2)

/-- The identity key of a node dict:
`node.get("id") or node.get("name")` — the id if truthy, else the name. -/
def keyOf (nd : NList) : PVal :=
  if (nodeGetD nd "id").truthy then nodeGetD nd "id" else nodeGetD nd "name"

/-- Key under which a vector result is recorded, if any: its "n" value
must be node-shaped and the identity key truthy (lines 144-160). -/
def vkey (r : VResult) : Option PVal :=
  match r.n with
  | .node nd => if (keyOf nd).truthy then some (keyOf nd) else none
  | .other => none

/-- The entry the vector loop stores for a result. -/
def ventry (r : VResult) : Entry :=
  match r.n with
  | .node nd => ⟨nd, r.similarity, .vector⟩
  | .other => ⟨[], r.similarity, .vector⟩

/-- One iteration of the vector loop: insert the result under its key
if it has one, else skip. -/
def vecStep (acc : FuseMap) (r : VResult) : FuseMap :=
  match vkey r with
  | some k => fmSet acc k (ventry r)
  | none => acc

/-- Vector phase of the fusion (lines 144-160): insert every keyed
vector result; a repeated key overwrites in place (Python dict). -/
def fuseVec (vres : List VResult) (m : FuseMap) : FuseMap :=
  vres.foldl vecStep m

/-- Key under which a traversal-bound value is recorded, if any
(lines 162-180): node-shaped, carrying an "id" or "name" key, and a
truthy identity value. -/
def tkey (v : RecVal) : Option PVal :=
  match v with
  | .node nd =>
    if nodeHasKey nd "id" || nodeHasKey nd "name" then
      if (keyOf nd).truthy then some (keyOf nd) else none
    else none
  | .other => none

/-- One iteration of the traversal loop body: append the bound node
under its key with the fixed default score 0.5 when the key is new;
keys already present are left untouched. -/
def travStep1 (acc2 : FuseMap) (kv : String × RecVal) : FuseMap :=
  match tkey kv.2 with
  | some k =>
    if fmHasKey acc2 k then acc2
    else match kv.2 with
      | .node nd => acc2 ++ [(k, ⟨nd, (1 : ℚ) / 2, .traversal⟩)]
      | .other => acc2
  | none => acc2

/-- Process one traversal record: walk its bindings in order. -/
def travStepRec (acc : FuseMap) (rc : List (String × RecVal)) : FuseMap :=
  rc.foldl travStep1 acc

/-- Traversal phase: walk every record's bindings in order and append
each new key with the fixed default score 0.5; keys already present are
left untouched. -/
def fuseTrav (tres : List (List (String × RecVal))) (m : FuseMap) : FuseMap :=
  tres.foldl travStepRec m

/-- The fusion of hybrid_retrieval: vector results first, then
traversal records, into one dict keyed by node identity. -/
def fuse_nodes (vres : List VResult)
    (tres : List (List (String × RecVal))) : FuseMap :=
  fuseTrav tres (fuseVec vres [])

/-- Coarse node-kind heuristic of _build_context (lines 199-214),
translated branch for branch. -/
def nodeKind (nd : NList) : String :=
  if nodeHasKey nd "nationality" || nodeHasKey nd "born" then
    if nodeHasKey nd "seasons" || nodeHasKey nd "episodes" then "Serie"
    else if nodeHasKey nd "year" || nodeHasKey nd "duration" then "Film"
    else if !nodeHasKey nd "seasons" && !nodeHasKey nd "episodes" &&
            !nodeHasKey nd "year" && !nodeHasKey nd "duration" then "Actor"
    else "Node"
  else if nodeHasKey nd "year" || nodeHasKey nd "duration" then "Film"
  else if nodeHasKey nd "seasons" || nodeHasKey nd "episodes" then "Serie"
  else if nodeHasKey nd "name" && !nodeHasKey nd "nationality" &&
          !nodeHasKey nd "year" then "Genre"
  else "Node"

/-- Python str() of a property value as interpolated into the rendered
lines (numeric formatting is irrelevant to every claim). -/
def pvalStr : PVal → String
  | .str s => s
  | .num q => toString q
  | .vec v => toString v
  | .null => "None"

/-- The display name: `node.get("name", "Unknown")`. -/
def nodeName (nd : NList) : String :=
  match nodeGet nd "name" with
  | some v => pvalStr v
  | none => "Unknown"

/-- The lines one node contributes (lines 216-223): the "Kind: name"
header, then one indented line per property that is not an internal
field (embedding, id), is not None, and is truthy (`if value:`). -/
def nodeParts (e : Entry) : List String :=
  (nodeKind e.node ++ ": " ++ nodeName e.node) ::
    (((e.node.filter
          (fun p => !(p.1 = "embedding") && !(p.1 = "id") && !(p.2 = PVal.null))).filter
        (fun p => p.2.truthy)).map
      (fun p => "  - " ++ p.1 ++ ": " ++ pvalStr p.2))

/-- _build_context: accumulate every node's lines into context_parts and
join with newlines; an empty accumulation yields the fixed sentinel. -/
def build_context (nodes : List Entry) : String :=
  let parts := nodes.foldl (fun acc e => acc ++ nodeParts e) []
  if parts.isEmpty then "No relevant context found."
  else String.intercalate "\n" parts

/- ===================================================================
   ToolRegistry: GraphQueryTool._run (tools.py lines 58-71) and
   WebSearchTool._run (lines 117-123)
   =================================================================== -/

/-- GraphQueryTool._run.  The underlying retrieval calls (hybrid
pipeline or raw traversal) run against external collaborators and may
raise; they are modelled as Except-valued inputs.  A hybrid success
carries the rendered context and the fused node count; a traversal
success carries its JSON serialization.  The try/except converts any
failure into the prefixed error text. -/
def graph_query_run (hybridRes : Except String (String × ℕ))
    (travRes : Except String String) (use_vector_search : Bool) : String :=
  if use_vector_search then
    match hybridRes with
    | .ok (ctx, n) =>
      "Graph Context:\n" ++ ctx ++ "\n\nFound " ++ toString n ++ " relevant nodes."
    | .error e => "Error querying graph: " ++ e
  else
    match travRes with
    | .ok s => "Graph Traversal Results: " ++ s
    | .error e => "Error querying graph: " ++ e

/-- WebSearchTool._run: the stub always returns the fixed placeholder
text around the query. -/
def web_search_run (query : String) : String :=
  "[Mock Web Search] Results for " ++ "\x27" ++ query ++ "\x27" ++ ": " ++
  "This is a placeholder. In production, this would call a real search API."

/- ===================================================================
   OrchestrationLoop: AgenticAI (src/agent/agent.py)
   =================================================================== -/

/-- A structured tool-call request emitted by the reasoning capability
(already normalized to name + argument text, as _agent_node does for the
dict- and object-shaped variants). -/
structure ToolCall where
  name : String
  args : String
deriving DecidableEq

/-- One response of the reasoning capability: a content message plus
zero or more tool calls. -/
structure Response where
  content : String
  tool_calls : List ToolCall
deriving DecidableEq

/-- Transcript messages (LangChain System/Human/AI/Tool messages). -/
inductive Msg where
  | system (content : String)
  | human (content : String)
  | ai (content : String) (tool_calls : List ToolCall)
  | tool (name : String) (content : String)
deriving DecidableEq

/-- Is this a SystemMessage? -/
def Msg.isSystem : Msg → Bool
  | .system _ => true
  | _ => false

/-- The `.content` attribute of a message. -/
def Msg.contentOf : Msg → String
  | .system c => c
  | .human c => c
  | .ai c _ => c
  | .tool _ c => c

/-- One trace entry of the steps list. -/
structure Step where
  step : String
  tools : List String
  reasoning : String
deriving DecidableEq

/-- The LangGraph AgentState: transcript, step trace and the running
tools-used collection (duplicates allowed). -/
structure AgentState where
  messages : List Msg
  steps : List Step
  tools_used : List String
deriving DecidableEq

/-- The fixed persona/system message prepended by _agent_node
(content abbreviated; only its identity matters to the claims). -/
def systemMessage : Msg :=
  .system "You are an intelligent AI assistant with access to a knowledge graph and various tools."

/-- The guard of _agent_node:
`if not messages or not isinstance(messages[0], SystemMessage)`. -/
def needsSystem (msgs : List Msg) : Bool :=
  match msgs with
  | [] => true
  | m :: _ => !m.isSystem

/-- The local message list handed to the reasoning capability: the
transcript with the persona message prepended when the guard fires.
The prepend is local — it is not written back to the state. -/
def localMsgs (msgs : List Msg) : List Msg :=
  if needsSystem msgs then systemMessage :: msgs else msgs

/-- _agent_node: invoke the reasoning capability on the local message
list; when tool calls are present, extend tools_used with their names
and append one tool_selection step; append the AI response to the
transcript. -/
def agent_node (llm : List Msg → Response) (st : AgentState) : AgentState :=
  let resp := llm (localMsgs st.messages)
  let names := resp.tool_calls.map (·.name)
  if resp.tool_calls.isEmpty then
    { st with messages := st.messages ++ [.ai resp.content resp.tool_calls] }
  else
    { messages := st.messages ++ [.ai resp.content resp.tool_calls]
      steps := st.steps ++
        [⟨"tool_selection", names, "Agent selected tools based on query analysis"⟩]
      tools_used := st.tools_used ++ names }

/-- The pending tool calls of the last transcript message
(_should_continue inspects exactly this). -/
def pendingCalls (msgs : List Msg) : List ToolCall :=
  match msgs.getLast? with
  | some (.ai _ tcs) => tcs
  | _ => []

/-- The LangGraph ToolNode: execute every pending call in order through
the registry dispatch and append one tool message per call. -/
def tool_node (registry : String → String → String) (st : AgentState) : AgentState :=
  { st with
    messages := st.messages ++
      (pendingCalls st.messages).map (fun tc => .tool tc.name (registry tc.name tc.args)) }

/-- The three control states of the compiled graph. -/
inductive Phase where
  | reasoning | toolExec | done
deriving DecidableEq

/-- One transition of the orchestration state machine: a Reasoning round
runs _agent_node and then _should_continue (zero pending tool calls go
to Done, otherwise to ToolExecution); a ToolExecution round runs the
tool node and always returns to Reasoning; Done is terminal. -/
def stepPhase (llm : List Msg → Response) (registry : String → String → String) :
    Phase × AgentState → Phase × AgentState
  | (.reasoning, st) =>
    let st2 := agent_node llm st
    if (pendingCalls st2.messages).isEmpty then (.done, st2) else (.toolExec, st2)
  | (.toolExec, st) => (.reasoning, tool_node registry st)
  | (.done, st) => (.done, st)

/-- Run the machine until Done, bounded by fuel (the code enforces no
round ceiling; a run that does not finish within the fuel is `none`). -/
def runMachine (llm : List Msg → Response) (registry : String → String → String) :
    ℕ → Phase × AgentState → Option AgentState
  | 0, _ => none
  | f + 1, (p, st) =>
    match p with
    | .done => some st
    | _ => runMachine llm registry f (stepPhase llm registry (p, st))

/-- The initial state of `query`: the transcript seeded with the user's
query as the sole (human) turn, empty step trace, empty tools-used. -/
def initState (user_query : String) : AgentState :=
  ⟨[.human user_query], [], []⟩

/-- The final output record of `query`. -/
structure AgentOut where
  response : String
  tools_used : Finset String
  steps : List Step
  message_count : ℕ
deriving DecidableEq

/-- Output extraction of `query` (lines 125-134): the response text is
the content of the last transcript message; tools_used is
`list(set(...))` — the deduplicated set of the running collection,
computed once here; steps and message count are taken as is. -/
def extractOut (st : AgentState) : AgentOut :=
  { response := (st.messages.getLast?.getD (.human "")).contentOf
    tools_used := st.tools_used.toFinset
    steps := st.steps
    message_count := st.messages.length }

/-- AgenticAI.query: seed the state, run the compiled graph, extract. -/
def query_run (llm : List Msg → Response) (registry : String → String → String)
    (fuel : ℕ) (user_query : String) : Option AgentOut :=
  (runMachine llm registry fuel (.reasoning, initState user_query)).map extractOut

/- ===================================================================
   Specification-side definitions and concrete instances used by the
   claim theorems
   =================================================================== -/

/-- Real cosine-similarity surrogate of one candidate against a fixed
query factor: `d / sqrt n`.  Dividing by the common positive
`sqrt (dotQ qv qv)` turns it into `simR`, so it orders candidates the
same way. -/
noncomputable def simQ (d n : ℚ) : ℝ :=
  (d : ℝ) / Real.sqrt (n : ℝ)

/-- The lines one node contributes according to the amended rendering
claim: the "Kind: name" header, then one indented line per property
that is neither of the internal fields (embedding, id) and whose value
is truthy — non-null AND non-falsy (None is falsy, so the code's
separate None filter is subsumed). -/
def specBlock (e : Entry) : List String :=
  (nodeKind e.node ++ ": " ++ nodeName e.node) ::
    (e.node.filter (fun p => !(p.1 = "embedding") && !(p.1 = "id") && p.2.truthy)).map
      (fun p => "  - " ++ p.1 ++ ": " ++ pvalStr p.2)

/-- The rendering described by the amended claim: the fixed sentinel for
an empty fused set, otherwise the newline join of every node's block. -/
def spec_render (nodes : List Entry) : String :=
  if nodes.isEmpty then "No relevant context found."
  else String.intercalate "\n" (nodes.map specBlock).flatten

/-- A fused node carrying a non-null but falsy property value
("rating": 0), the counterexample input for the rendering claim. -/
def entry7 : Entry :=
  ⟨[("name", PVal.str "X"), ("rating", PVal.num 0)], (1 : ℚ) / 2, .traversal⟩

/-- A reasoning capability that answers immediately with no tool calls. -/
def llmNoTools : List Msg → Response := fun _ => ⟨"hello", []⟩

/-- A reasoning capability that requests the calculator on each of its
first two rounds (transcript still short) and then stops. -/
def llmTwoCalls : List Msg → Response := fun msgs =>
  if msgs.length ≤ 4 then ⟨"think", [⟨"calculator", "1+1"⟩]⟩ else ⟨"answer", []⟩

/-- A trivial registry dispatch used by the concrete runs. -/
def regEcho : String → String → String := fun _ a => "ok " ++ a

/-- Concrete fusion inputs: the key "A" occurs in both the vector
results and the traversal records. -/
def nodeA : NList := [("name", PVal.str "A")]

/-- Vector results for the fusion witness. -/
def vresW : List VResult := [⟨RecVal.node nodeA, (9 : ℚ) / 10⟩]

/-- Traversal records for the fusion witness: one record binding the
duplicate node "A" and a fresh node "B". -/
def tresW : List (List (String × RecVal)) :=
  [[("a", RecVal.node nodeA), ("b", RecVal.node [("name", PVal.str "B")])]]

/-- Concrete records for the vector-search witnesses: one unit-vector
node, one node without embedding, one zero-norm node, two more nodes
producing a similarity tie with the first. -/
def recs6 : List RecVal :=
  [RecVal.node [("name", PVal.str "a"), ("embedding", PVal.vec [1, 0])],
   RecVal.node [("name", PVal.str "nz")],
   RecVal.node [("name", PVal.str "z"), ("embedding", PVal.vec [0, 0])],
   RecVal.node [("name", PVal.str "b"), ("embedding", PVal.vec [1, 1])],
   RecVal.node [("name", PVal.str "c"), ("embedding", PVal.vec [2, 0])]]

/-- The top-ranked candidate of `vector_search [1, 0] recs6 2`. -/
def cand6 : VCand := ⟨0, [("name", PVal.str "a"), ("embedding", PVal.vec [1, 0])], 1, 1⟩

/-- A one-node record set for the ranking witness. -/
def nd0 : NList := [("embedding", PVal.vec [1])]

/-- The candidate entry produced for nd0 against the query vector [1]. -/
def cand0 : VCand := ⟨0, nd0, 1, 1⟩

/- ===================================================================
   Claim theorems
   =================================================================== -/

/-- C1: every character surviving the calculator sanitizer is a digit,
one of + - * / ( ) ., or whitespace, so no identifier or side-effecting
construct reaches the evaluator; in particular the injection string
__import__(\x27os\x27).system(\x27ls\x27) sanitizes to the invalid
expression "().()" and yields the uniform error text instead of being
executed. -/
theorem calculator_sanitized_safe :
    (∀ e : String, ∀ c ∈ (sanitize e).toList, allowedChar c = true) ∧
    sanitize "__import__(\x27os\x27).system(\x27ls\x27)" = "().()" ∧
    (∃ m, calculator_run "__import__(\x27os\x27).system(\x27ls\x27)" =
      "Error calculating: " ++ m) := by
  refine ⟨?_, by decide, ⟨"invalid number literal", by decide⟩⟩
  intro e c hc
  have h : (sanitize e).toList = e.toList.filter allowedChar := rfl
  rw [h] at hc
  exact (List.mem_filter.mp hc).2

/-- Witness for C1 at a concrete input: the surviving character '+' of
"1+1" is in the allowed set. -/
theorem calculator_sanitized_safe_witness : allowedChar '+' = true :=
  calculator_sanitized_safe.1 "1+1" '+' (by decide)

/-- C4: every tool invocation returns text: the calculator returns
either a "Result: ..." success or the prefixed "Error calculating: ..."
text; the graph tool returns a hybrid rendering, a traversal dump, or
the prefixed "Error querying graph: ..." text; the web-search stub
always returns its fixed placeholder.  No failure escapes as an
exception — the functions are total and every error branch produces the
distinctly prefixed text as an ordinary result. -/
theorem tool_invocation_error_contract :
    (∀ e : String,
        (∃ v, calculator_run e = "Result: " ++ v) ∨
        (∃ m, calculator_run e = "Error calculating: " ++ m)) ∧
    (∀ (h : Except String (String × ℕ)) (t : Except String String) (u : Bool),
        (∃ p : String × ℕ, graph_query_run h t u =
            "Graph Context:\n" ++ p.1 ++ "\n\nFound " ++ toString p.2 ++
              " relevant nodes.") ∨
        (∃ s, graph_query_run h t u = "Graph Traversal Results: " ++ s) ∨
        (∃ m, graph_query_run h t u = "Error querying graph: " ++ m)) ∧
    (∀ q : String, web_search_run q =
        "[Mock Web Search] Results for " ++ "\x27" ++ q ++ "\x27" ++ ": " ++
        "This is a placeholder. In production, this would call a real search API.") := by
  refine ⟨?_, ?_, fun q => rfl⟩
  · intro e
    unfold calculator_run
    cases h : evalArith (sanitize e) with
    | ok v => exact Or.inl ⟨toString v, rfl⟩
    | error m => exact Or.inr ⟨m, rfl⟩
  · intro h t u
    unfold graph_query_run
    cases u with
    | true =>
      cases h with
      | ok p => exact Or.inl ⟨p, by simp⟩
      | error m => exact Or.inr (Or.inr ⟨m, rfl⟩)
    | false =>
      cases t with
      | ok s => exact Or.inr (Or.inl ⟨s, rfl⟩)
      | error m => exact Or.inr (Or.inr ⟨m, rfl⟩)

/-- C8: intent classification is the case-insensitive first-match
keyword scan: "Who played in Inception?" (either case) routes to the
actor pattern, the French director query "Qui a réalisé Inception ?"
routes to the director pattern, a query matching both keyword sets
takes the first, and an unmatched query falls back to the generic
bounded ≤2-hop neighborhood template. -/
theorem intent_classification_cases :
    classify "Who played in Inception?" = Pattern.actorRole ∧
    classify "WHO PLAYED IN INCEPTION?" = Pattern.actorRole ∧
    classify "Qui a réalisé Inception ?" = Pattern.directorRole ∧
    classify "actor director" = Pattern.actorRole ∧
    classify "xyzzy" = Pattern.genericSubgraph ∧
    graph_traversal_query "xyzzy" =
      (patternCypher Pattern.genericSubgraph, some "xyzzy") ∧
    strContains (patternCypher Pattern.genericSubgraph) "[*1..2]" = true := by
  decide

/-- C10: a query whose embedding has zero norm fails the strictly
positive query-norm filter for every candidate, so vector search
returns the empty list regardless of the candidate records. -/
theorem zero_norm_query_yields_empty (qv : List ℚ) (recs : List RecVal) (k : ℕ)
    (h : dotQ qv qv = 0) : vector_search qv recs k = [] := by
  have hc : candidates qv recs = [] := by
    unfold candidates
    have hfil : (recs.enum).filter (fun p => goodB qv p.2) = [] := by
      apply List.filter_eq_nil_iff.mpr
      intro p _
      unfold goodB
      cases hr : recNodeEmb qv p.2 with
      | none => simp
      | some nv => simp [h]
    rw [hfil]
    rfl
  unfold vector_search
  rw [hc]
  simp [sortD]

/-- Witness for C10: the concrete zero vector against the concrete
record list yields no results. -/
theorem zero_norm_query_yields_empty_witness :
    dotQ [0, 0] [0, 0] = 0 ∧ vector_search [0, 0] recs6 3 = [] :=
  ⟨by norm_num [dotQ], zero_norm_query_yields_empty [0, 0] recs6 3 (by norm_num [dotQ])⟩

/-- After appending an AI response, the pending tool calls are exactly
that response's tool calls. -/
theorem pendingCalls_append (msgs : List Msg) (c : String) (tcs : List ToolCall) :
    pendingCalls (msgs ++ [Msg.ai c tcs]) = tcs := by
  unfold pendingCalls
  rw [List.getLast?_concat]

/-- agent_node always appends exactly the AI response to the transcript
(both branches of the tool-call test do). -/
theorem agent_node_messages (llm : List Msg → Response) (st : AgentState) :
    (agent_node llm st).messages = st.messages ++
      [Msg.ai (llm (localMsgs st.messages)).content
        (llm (localMsgs st.messages)).tool_calls] := by
  unfold agent_node
  by_cases h : (llm (localMsgs st.messages)).tool_calls.isEmpty <;> simp [h]

/-- agent_node extends the running tools-used list by the round's tool
names, without deduplication (the empty extension when no calls are
present equals appending the empty name list). -/
theorem agent_node_tools_used (llm : List Msg → Response) (st : AgentState) :
    (agent_node llm st).tools_used =
      st.tools_used ++ (llm (localMsgs st.messages)).tool_calls.map (·.name) := by
  unfold agent_node
  by_cases h : (llm (localMsgs st.messages)).tool_calls.isEmpty
  · have h0 : (llm (localMsgs st.messages)).tool_calls = [] := by
      simpa [List.isEmpty_iff] using h
    simp [h, h0]
  · simp [h]

/-- C3: a Reasoning round transitions to Done exactly when the response
carries zero tool calls, transitions to ToolExecution exactly when it
carries at least one, and a ToolExecution round is always followed by
exactly one Reasoning round. -/
theorem loop_done_iff_no_tool_calls (llm : List Msg → Response)
    (registry : String → String → String) (st : AgentState) :
    ((stepPhase llm registry (.reasoning, st)).1 = .done ↔
       (llm (localMsgs st.messages)).tool_calls = []) ∧
    ((stepPhase llm registry (.reasoning, st)).1 = .toolExec ↔
       (llm (localMsgs st.messages)).tool_calls ≠ []) ∧
    (stepPhase llm registry (.toolExec, st)).1 = .reasoning := by
  have hp : pendingCalls (agent_node llm st).messages =
      (llm (localMsgs st.messages)).tool_calls := by
    rw [agent_node_messages, pendingCalls_append]
  refine ⟨?_, ?_, rfl⟩ <;>
    by_cases h : (llm (localMsgs st.messages)).tool_calls = [] <;>
      simp [stepPhase, hp, h]

/-- C9: tool names accumulate across rounds with duplicates retained
(agent_node appends the round's names, the tool node leaves the
collection untouched), deduplication happens exactly once at output
extraction, and the response text is the content of the last transcript
message; the concrete two-round run requests the calculator twice, so
the running collection holds two copies while the output set holds
one. -/
theorem tools_used_dedup_once :
    (∀ (llm : List Msg → Response) (st : AgentState),
        (agent_node llm st).tools_used =
          st.tools_used ++ (llm (localMsgs st.messages)).tool_calls.map (·.name)) ∧
    (∀ (registry : String → String → String) (st : AgentState),
        (tool_node registry st).tools_used = st.tools_used) ∧
    (∀ st : AgentState,
        (extractOut st).tools_used = st.tools_used.toFinset ∧
        (extractOut st).response =
          (st.messages.getLast?.getD (.human "")).contentOf) ∧
    (runMachine llmTwoCalls regEcho 9 (.reasoning, initState "q")).map
        AgentState.tools_used = some ["calculator", "calculator"] ∧
    (query_run llmTwoCalls regEcho 9 "q").map AgentOut.tools_used =
      some ({"calculator"} : Finset String) := by
  refine ⟨fun llm st => agent_node_tools_used llm st, fun r st => rfl,
    fun st => ⟨rfl, rfl⟩, by decide, by decide⟩

/-- The tool node appends exactly one tool message per pending call. -/
theorem tool_node_messages (registry : String → String → String) (st : AgentState) :
    (tool_node registry st).messages = st.messages ++
      (pendingCalls st.messages).map
        (fun tc => .tool tc.name (registry tc.name tc.args)) := rfl

/-- When the transcript holds no system message, the guard fires and the
reasoning capability receives the persona message prepended locally. -/
theorem localMsgs_no_system (msgs : List Msg)
    (h : ∀ m ∈ msgs, m.isSystem = false) :
    localMsgs msgs = systemMessage :: msgs := by
  unfold localMsgs needsSystem
  cases msgs with
  | nil => rfl
  | cons m ms => simp [h m (List.mem_cons_self m ms)]

/-- Appending non-system messages preserves the transcript invariant:
no system message anywhere and the seeded human query still first. -/
theorem noSys_append (msgs new : List Msg) (q : String)
    (h1 : ∀ m ∈ msgs, m.isSystem = false)
    (h2 : ∀ m ∈ new, m.isSystem = false)
    (hh : msgs.head? = some (Msg.human q)) :
    (∀ m ∈ msgs ++ new, m.isSystem = false) ∧
      (msgs ++ new).head? = some (Msg.human q) := by
  constructor
  · intro m hm
    rcases List.mem_append.mp hm with h | h
    · exact h1 m h
    · exact h2 m h
  · cases msgs with
    | nil => simp at hh
    | cons x xs => simpa using hh

/-- One machine step preserves the transcript invariant. -/
theorem stepPhase_noSys (llm : List Msg → Response)
    (registry : String → String → String) (q : String) (p : Phase) (st : AgentState)
    (h : (∀ m ∈ st.messages, m.isSystem = false) ∧
      st.messages.head? = some (Msg.human q)) :
    (∀ m ∈ (stepPhase llm registry (p, st)).2.messages, m.isSystem = false) ∧
      (stepPhase llm registry (p, st)).2.messages.head? = some (Msg.human q) := by
  cases p with
  | done => exact h
  | reasoning =>
    have hst : (stepPhase llm registry (.reasoning, st)).2 = agent_node llm st := by
      by_cases hc : (pendingCalls (agent_node llm st).messages).isEmpty <;>
        simp [stepPhase, hc]
    rw [hst, agent_node_messages]
    exact noSys_append _ _ q h.1 (by intro m hm; simp at hm; subst hm; rfl) h.2
  | toolExec =>
    have hst : (stepPhase llm registry (.toolExec, st)).2 = tool_node registry st := rfl
    rw [hst, tool_node_messages]
    refine noSys_append _ _ q h.1 ?_ h.2
    intro m hm
    rcases List.mem_map.mp hm with ⟨tc, _, hrm⟩
    subst hrm
    rfl

/-- A completed run started from an invariant state ends in an invariant
state. -/
theorem runMachine_noSys (llm : List Msg → Response)
    (registry : String → String → String) (q : String) :
    ∀ (fuel : ℕ) (p : Phase) (st f : AgentState),
      ((∀ m ∈ st.messages, m.isSystem = false) ∧
        st.messages.head? = some (Msg.human q)) →
      runMachine llm registry fuel (p, st) = some f →
      (∀ m ∈ f.messages, m.isSystem = false) ∧
        f.messages.head? = some (Msg.human q) := by
  intro fuel
  induction fuel with
  | zero => intro p st f _ hrun; exact absurd hrun (by simp [runMachine])
  | succ n ih =>
    intro p st f hInv hrun
    cases p with
    | done =>
      have : st = f := by simpa [runMachine] using hrun
      exact this ▸ hInv
    | reasoning =>
      have hrun2 : runMachine llm registry n
          ((stepPhase llm registry (.reasoning, st)).1,
           (stepPhase llm registry (.reasoning, st)).2) = some f := by
        simpa [runMachine] using hrun
      exact ih _ _ f (stepPhase_noSys llm registry q .reasoning st hInv) hrun2
    | toolExec =>
      have hrun2 : runMachine llm registry n
          ((stepPhase llm registry (.toolExec, st)).1,
           (stepPhase llm registry (.toolExec, st)).2) = some f := by
        simpa [runMachine] using hrun
      exact ih _ _ f (stepPhase_noSys llm registry q .toolExec st hInv) hrun2

/-- C5 (amended): within one query the transcript is strictly
append-only (each node returns the previous transcript plus its own
appended messages); the persona message is prepended only to the local
message list handed to the reasoning capability, which happens whenever
the transcript does not start with a system message — and since the
prepend is never persisted, a completed run's transcript contains no
system message at all and still starts with the seeded human query. -/
theorem transcript_append_only_system_local :
    (∀ (llm : List Msg → Response) (st : AgentState),
        (agent_node llm st).messages = st.messages ++
          [Msg.ai (llm (localMsgs st.messages)).content
            (llm (localMsgs st.messages)).tool_calls]) ∧
    (∀ (registry : String → String → String) (st : AgentState),
        (tool_node registry st).messages = st.messages ++
          (pendingCalls st.messages).map
            (fun tc => .tool tc.name (registry tc.name tc.args))) ∧
    (∀ msgs : List Msg, (∀ m ∈ msgs, m.isSystem = false) →
        localMsgs msgs = systemMessage :: msgs) ∧
    (∀ (llm : List Msg → Response) (registry : String → String → String)
        (q : String) (fuel : ℕ) (f : AgentState),
        runMachine llm registry fuel (.reasoning, initState q) = some f →
        (∀ m ∈ f.messages, m.isSystem = false) ∧
          f.messages.head? = some (Msg.human q)) := by
  refine ⟨agent_node_messages, tool_node_messages, localMsgs_no_system, ?_⟩
  intro llm registry q fuel f hrun
  exact runMachine_noSys llm registry q fuel .reasoning (initState q) f
    (by constructor
        · intro m hm
          simp [initState] at hm
          subst hm
          rfl
        · rfl)
    hrun

/-- Witness for C5 (amended) at concrete inputs: the guard fires on a
system-free transcript, and the concrete completed run's transcript is
system-free and query-headed. -/
theorem transcript_append_only_system_local_witness :
    localMsgs [Msg.human "hi"] = systemMessage :: [Msg.human "hi"] ∧
    ((∀ m ∈ (AgentState.mk [Msg.human "salut", Msg.ai "hello" []] [] []).messages,
        m.isSystem = false) ∧
      (AgentState.mk [Msg.human "salut", Msg.ai "hello" []] [] []).messages.head? =
        some (Msg.human "salut")) :=
  ⟨transcript_append_only_system_local.2.2.1 [Msg.human "hi"] (by decide),
   transcript_append_only_system_local.2.2.2 llmNoTools regEcho "salut" 3
     ⟨[Msg.human "salut", Msg.ai "hello" []], [], []⟩ (by decide)⟩

/-- Counterexample to C5 as stated: in a concrete completed run the
final transcript contains zero system messages, so the persona message
was never prepended to the transcript (not exactly once). -/
theorem system_prepend_counterexample :
    (runMachine llmNoTools regEcho 3 (.reasoning, initState "salut")).map
        (fun st => st.messages.countP Msg.isSystem) = some 0 := by
  decide

/-- The per-node lines of the code equal the amended specification
block: the code's separate None filter followed by the truthiness test
collapses into the single truthiness filter, because None is falsy. -/
theorem nodeParts_eq_specBlock (e : Entry) : nodeParts e = specBlock e := by
  unfold nodeParts specBlock
  have h : (e.node.filter
        (fun p => !(p.1 = "embedding") && !(p.1 = "id") && !(p.2 = PVal.null))).filter
        (fun p => p.2.truthy) =
      e.node.filter
        (fun p => !(p.1 = "embedding") && !(p.1 = "id") && p.2.truthy) := by
    rw [List.filter_filter]
    apply List.filter_congr
    intro p _
    cases p.2 <;> simp [PVal.truthy, Bool.and_comm]
  rw [h]

/-- Accumulating node parts by folding equals flattening the per-node
blocks. -/
theorem foldl_nodeParts (l : List Entry) :
    ∀ acc : List String,
      l.foldl (fun a e => a ++ nodeParts e) acc = acc ++ (l.map nodeParts).flatten := by
  induction l with
  | nil => intro acc; simp
  | cons e t ih => intro acc; simp [ih, List.append_assoc]

/-- C7 (amended): the rendering emits, for each fused node, one
"Kind: name" line followed by indented "key: value" lines for exactly
the remaining properties that are truthy (non-null AND non-falsy —
falsy values such as 0 or "" are skipped), excluding the internal
fields embedding and id; an empty fused set yields the fixed no-context
sentinel. -/
theorem build_context_eq_spec_render (nodes : List Entry) :
    build_context nodes = spec_render nodes := by
  unfold build_context spec_render
  rw [foldl_nodeParts nodes [], List.nil_append]
  have hmap : nodes.map nodeParts = nodes.map specBlock :=
    List.map_congr_left (fun e _ => nodeParts_eq_specBlock e)
  rw [hmap]
  cases nodes with
  | nil => rfl
  | cons e t =>
    have hne : ¬ (((e :: t).map specBlock).flatten.isEmpty = true) := by
      simp [specBlock]
    simp only [List.isEmpty_cons]
    rw [if_neg hne]
    rfl

/-- Counterexample to C7 as stated: the node of entry7 carries the
non-null, non-internal property "rating" with value 0, yet the rendered
context contains no line (not even the substring) for it — the code's
`if value:` truthiness test drops falsy non-null values. -/
theorem render_skips_falsy_counterexample :
    nodeGet entry7.node "rating" = some (PVal.num 0) ∧
    PVal.num 0 ≠ PVal.null ∧
    strContains (build_context [entry7]) "rating" = false := by
  refine ⟨by decide, by decide, by decide⟩

/-- A key is present exactly when it occurs among the map's keys. -/
theorem fmHasKey_iff (m : FuseMap) (k : PVal) :
    fmHasKey m k = true ↔ k ∈ m.map Prod.fst := by
  unfold fmHasKey
  rw [List.any_eq_true]
  constructor
  · rintro ⟨p, hp, hpk⟩
    exact List.mem_map.mpr ⟨p, hp, of_decide_eq_true hpk⟩
  · rintro h
    rcases List.mem_map.mp h with ⟨p, hp, hpk⟩
    exact ⟨p, hp, decide_eq_true hpk⟩

/-- Presence of a key is preserved by appending on the right. -/
theorem fmHasKey_append_left (m t : FuseMap) (k : PVal)
    (h : fmHasKey m k = true) : fmHasKey (m ++ t) k = true := by
  unfold fmHasKey at *
  rw [List.any_append, h]
  rfl

/-- Overwriting an existing key keeps the key list unchanged. -/
theorem fmSet_map_fst_of_hasKey (m : FuseMap) (k : PVal) (e : Entry)
    (h : fmHasKey m k = true) :
    (fmSet m k e).map Prod.fst = m.map Prod.fst := by
  simp only [fmSet, h, if_true]
  rw [List.map_map]
  apply List.map_congr_left
  intro p _
  by_cases hp : p.1 = k <;> simp [hp]

/-- Inserting a fresh key appends it to the key list. -/
theorem fmSet_map_fst_of_new (m : FuseMap) (k : PVal) (e : Entry)
    (h : fmHasKey m k = false) :
    (fmSet m k e).map Prod.fst = m.map Prod.fst ++ [k] := by
  simp [fmSet, h]

/-- Python dict assignment preserves key uniqueness. -/
theorem fmSet_nodup (m : FuseMap) (k : PVal) (e : Entry)
    (h : (m.map Prod.fst).Nodup) : ((fmSet m k e).map Prod.fst).Nodup := by
  cases hk : fmHasKey m k with
  | true => rw [fmSet_map_fst_of_hasKey m k e hk]; exact h
  | false =>
    rw [fmSet_map_fst_of_new m k e hk]
    refine List.Nodup.append h (List.nodup_singleton k) ?_
    intro x hx hxk
    rcases List.mem_singleton.mp hxk with rfl
    exact absurd ((fmHasKey_iff m x).mpr hx) (by simp [hk])

/-- Assignment makes its own key present. -/
theorem fmSet_hasKey_self (m : FuseMap) (k : PVal) (e : Entry) :
    fmHasKey (fmSet m k e) k = true := by
  rw [fmHasKey_iff]
  cases hk : fmHasKey m k with
  | true => rw [fmSet_map_fst_of_hasKey m k e hk]; exact (fmHasKey_iff m k).mp hk
  | false => rw [fmSet_map_fst_of_new m k e hk]; exact List.mem_append_right _ (by simp)

/-- Assignment preserves presence of every key. -/
theorem fmSet_hasKey_mono (m : FuseMap) (k2 : PVal) (e : Entry) (k : PVal)
    (h : fmHasKey m k = true) : fmHasKey (fmSet m k2 e) k = true := by
  rw [fmHasKey_iff]
  cases hk : fmHasKey m k2 with
  | true => rw [fmSet_map_fst_of_hasKey m k2 e hk]; exact (fmHasKey_iff m k).mp h
  | false =>
    rw [fmSet_map_fst_of_new m k2 e hk]
    exact List.mem_append_left _ ((fmHasKey_iff m k).mp h)

/-- Every binding of an assigned map is an old binding or the assigned
pair. -/
theorem fmSet_mem (m : FuseMap) (k : PVal) (e : Entry) (p : PVal × Entry)
    (h : p ∈ fmSet m k e) : p ∈ m ∨ p = (k, e) := by
  unfold fmSet at h
  by_cases hk : fmHasKey m k
  · rw [if_pos hk] at h
    rcases List.mem_map.mp h with ⟨q, hq, hqe⟩
    by_cases hq1 : q.1 = k
    · right; rw [← hqe]; simp [hq1]
    · left; rw [← hqe]; simpa [hq1] using hq
  · rw [if_neg hk] at h
    rcases List.mem_append.mp h with h | h
    · exact Or.inl h
    · exact Or.inr (List.mem_singleton.mp h)

/-- The vector phase preserves key uniqueness. -/
theorem fuseVec_nodup (vres : List VResult) :
    ∀ m : FuseMap, (m.map Prod.fst).Nodup →
      ((fuseVec vres m).map Prod.fst).Nodup := by
  induction vres with
  | nil => intro m h; exact h
  | cons r t ih =>
    intro m h
    have hstep : (vecStep m r |>.map Prod.fst).Nodup := by
      unfold vecStep
      cases vkey r with
      | none => exact h
      | some k => exact fmSet_nodup m k (ventry r) h
    exact ih (vecStep m r) hstep

/-- After the vector phase, every key of a keyed vector result (and
every previously present key) is present. -/
theorem fuseVec_hasKey (vres : List VResult) (k : PVal) :
    ∀ m : FuseMap,
      ((∃ r ∈ vres, vkey r = some k) ∨ fmHasKey m k = true) →
      fmHasKey (fuseVec vres m) k = true := by
  induction vres with
  | nil =>
    intro m h
    rcases h with ⟨r, hr, _⟩ | h
    · exact absurd hr (List.not_mem_nil r)
    · exact h
  | cons r t ih =>
    intro m h
    have hnext : (∃ s ∈ t, vkey s = some k) ∨ fmHasKey (vecStep m r) k = true := by
      rcases h with ⟨s, hs, hsk⟩ | hm
      · rcases List.mem_cons.mp hs with rfl | hst
        · right
          unfold vecStep
          rw [hsk]
          exact fmSet_hasKey_self m k (ventry s)
        · exact Or.inl ⟨s, hst, hsk⟩
      · right
        unfold vecStep
        cases vkey r with
        | none => exact hm
        | some k2 => exact fmSet_hasKey_mono m k2 (ventry r) k hm
    exact ih (vecStep m r) hnext

/-- Every binding produced by the vector phase is an initial binding or
comes from some keyed vector result. -/
theorem fuseVec_mem (vres : List VResult) (k : PVal) (e : Entry) :
    ∀ m : FuseMap, (k, e) ∈ fuseVec vres m →
      (k, e) ∈ m ∨ ∃ r ∈ vres, vkey r = some k ∧ e = ventry r := by
  induction vres with
  | nil => intro m h; exact Or.inl h
  | cons r t ih =>
    intro m h
    rcases ih (vecStep m r) h with hm | ⟨s, hs, hsk, hse⟩
    · unfold vecStep at hm
      cases hv : vkey r with
      | none => rw [hv] at hm; exact Or.inl hm
      | some k2 =>
        rw [hv] at hm
        rcases fmSet_mem m k2 (ventry r) (k, e) hm with hm | hp
        · exact Or.inl hm
        · have hk : k = k2 := congrArg Prod.fst hp
          have he : e = ventry r := congrArg Prod.snd hp
          exact Or.inr ⟨r, List.mem_cons_self r t, by rw [hv, hk], he⟩
    · exact Or.inr ⟨s, List.mem_cons_of_mem r hs, hsk, hse⟩

/-- One traversal-loop iteration only appends, and only under keys that
were absent. -/
theorem travStep1_append (acc : FuseMap) (kv : String × RecVal) :
    ∃ t : FuseMap, travStep1 acc kv = acc ++ t ∧
      ∀ p ∈ t, fmHasKey acc p.1 = false := by
  unfold travStep1
  cases tkey kv.2 with
  | none => exact ⟨[], by simp, by intro p hp; exact absurd hp (List.not_mem_nil p)⟩
  | some k =>
    by_cases hk : fmHasKey acc k
    · exact ⟨[], by simp [hk], by intro p hp; exact absurd hp (List.not_mem_nil p)⟩
    · cases hv : kv.2 with
      | node nd =>
        refine ⟨[(k, ⟨nd, (1 : ℚ) / 2, .traversal⟩)], by simp [hk], ?_⟩
        intro p hp
        rcases List.mem_singleton.mp hp with rfl
        simpa using hk
      | other =>
        exact ⟨[], by simp [hk], by intro p hp; exact absurd hp (List.not_mem_nil p)⟩

/-- Folding an append-only step is append-only, with all appended keys
absent from the initial map. -/
theorem foldl_append_only {β : Type} (f : FuseMap → β → FuseMap)
    (hf : ∀ acc b, ∃ t, f acc b = acc ++ t ∧ ∀ p ∈ t, fmHasKey acc p.1 = false) :
    ∀ (l : List β) (acc : FuseMap),
      ∃ t, l.foldl f acc = acc ++ t ∧ ∀ p ∈ t, fmHasKey acc p.1 = false := by
  intro l
  induction l with
  | nil =>
    intro acc
    exact ⟨[], by simp, by intro p hp; exact absurd hp (List.not_mem_nil p)⟩
  | cons b l ih =>
    intro acc
    obtain ⟨t1, h1, hf1⟩ := hf acc b
    obtain ⟨t2, h2, hf2⟩ := ih (f acc b)
    refine ⟨t1 ++ t2, ?_, ?_⟩
    · rw [List.foldl_cons, h2, h1, List.append_assoc]
    · intro p hp
      rcases List.mem_append.mp hp with h | h
      · exact hf1 p h
      · have hfr := hf2 p h
        rw [h1] at hfr
        cases hacc : fmHasKey acc p.1 with
        | false => rfl
        | true => rw [fmHasKey_append_left acc t1 p.1 hacc] at hfr; exact hfr

/-- Processing one traversal record is append-only with fresh keys. -/
theorem travStepRec_append (acc : FuseMap) (rc : List (String × RecVal)) :
    ∃ t, travStepRec acc rc = acc ++ t ∧ ∀ p ∈ t, fmHasKey acc p.1 = false :=
  foldl_append_only travStep1 travStep1_append rc acc

/-- The whole traversal phase is append-only with fresh keys: bindings
already present (in particular all vector-phase bindings) are never
touched. -/
theorem fuseTrav_append (tres : List (List (String × RecVal))) (m : FuseMap) :
    ∃ t, fuseTrav tres m = m ++ t ∧ ∀ p ∈ t, fmHasKey m p.1 = false :=
  foldl_append_only travStepRec (fun acc rc => travStepRec_append acc rc) tres m

/-- Lookup of a present key ignores anything appended on the right. -/
theorem fmGet_append (m t : FuseMap) (k : PVal) (h : fmHasKey m k = true) :
    fmGet (m ++ t) k = fmGet m k := by
  unfold fmGet
  unfold fmHasKey at h
  rcases List.any_eq_true.mp h with ⟨p, hp, hpk⟩
  have hsome : (m.find? (fun p => decide (p.1 = k))).isSome :=
    (@List.find?_isSome _ m (fun p => decide (p.1 = k))).mpr ⟨p, hp, hpk⟩
  rcases Option.isSome_iff_exists.mp hsome with ⟨q, hq⟩
  rw [List.find?_append, hq]
  rfl

/-- The multiplicity of a present key is unchanged by appending
bindings whose keys are all absent. -/
theorem fmCount_append_fresh (m t : FuseMap) (k : PVal)
    (h : fmHasKey m k = true) (hf : ∀ p ∈ t, fmHasKey m p.1 = false) :
    fmCount (m ++ t) k = fmCount m k := by
  unfold fmCount
  rw [List.countP_append]
  have ht : t.countP (fun p => decide (p.1 = k)) = 0 := by
    rw [List.countP_eq_zero]
    intro p hp
    intro hpk
    have hk1 : p.1 = k := of_decide_eq_true hpk
    have hfp := hf p hp
    rw [hk1] at hfp
    rw [hfp] at h
    exact Bool.false_ne_true h
  rw [ht, Nat.add_zero]

/-- In a key-unique map, a present key has multiplicity exactly one. -/
theorem fmCount_eq_one (m : FuseMap) (k : PVal)
    (hn : (m.map Prod.fst).Nodup) (h : fmHasKey m k = true) :
    fmCount m k = 1 := by
  have hcount : fmCount m k = (m.map Prod.fst).count k := by
    unfold fmCount
    rw [List.count_eq_countP', List.countP_map]
    rfl
  rw [hcount]
  exact List.count_eq_one_of_mem hn ((fmHasKey_iff m k).mp h)

/-- A successful lookup yields an actual binding. -/
theorem fmGet_mem (m : FuseMap) (k : PVal) (e : Entry)
    (h : fmGet m k = some e) : (k, e) ∈ m := by
  unfold fmGet at h
  cases hf : m.find? (fun p => decide (p.1 = k)) with
  | none => rw [hf] at h; exact absurd h (by simp)
  | some q =>
    rw [hf] at h
    have hq : q ∈ m := List.mem_of_find?_eq_some hf
    have hqk0 := List.find?_some hf
    have hqk : q.1 = k := of_decide_eq_true hqk0
    have hqe : q.2 = e := by simpa using h
    have : q = (k, e) := Prod.ext hqk hqe
    rw [← this]
    exact hq

/-- A present key has a successful lookup. -/
theorem fmGet_isSome (m : FuseMap) (k : PVal) (h : fmHasKey m k = true) :
    ∃ e, fmGet m k = some e := by
  unfold fmHasKey at h
  rcases List.any_eq_true.mp h with ⟨p, hp, hpk⟩
  have hsome : (m.find? (fun p => decide (p.1 = k))).isSome :=
    (@List.find?_isSome _ m (fun p => decide (p.1 = k))).mpr ⟨p, hp, hpk⟩
  rcases Option.isSome_iff_exists.mp hsome with ⟨q, hq⟩
  exact ⟨q.2, by unfold fmGet; rw [hq]; rfl⟩

/-- The entry stored by the vector loop carries the vector source label
and the result's similarity. -/
theorem ventry_fields (r : VResult) :
    (ventry r).source = .vector ∧ (ventry r).similarity = r.similarity := by
  unfold ventry
  cases r.n <;> exact ⟨rfl, rfl⟩

/-- C2: a key occurring among the keyed vector results and also among
the traversal-bound nodes is recorded exactly once in the fused
context, with the vector source label and the similarity score of a
vector result bearing that key (that result's own node), never the
fixed traversal default. -/
theorem fusion_keeps_vector_entry (vres : List VResult)
    (tres : List (List (String × RecVal))) (k : PVal)
    (hv : ∃ r ∈ vres, vkey r = some k)
    (_ht : ∃ rc ∈ tres, ∃ kv ∈ rc, tkey kv.2 = some k) :
    fmCount (fuse_nodes vres tres) k = 1 ∧
    ∃ e, fmGet (fuse_nodes vres tres) k = some e ∧ e.source = .vector ∧
      ∃ r ∈ vres, vkey r = some k ∧ e.similarity = r.similarity ∧
        ∃ nd, r.n = RecVal.node nd ∧ e.node = nd := by
  have hmk : fmHasKey (fuseVec vres []) k = true :=
    fuseVec_hasKey vres k [] (Or.inl hv)
  have hnodup : ((fuseVec vres []).map Prod.fst).Nodup :=
    fuseVec_nodup vres [] (by simp)
  have hcount : fmCount (fuseVec vres []) k = 1 := fmCount_eq_one _ _ hnodup hmk
  obtain ⟨e, hget⟩ := fmGet_isSome _ _ hmk
  have hmem : (k, e) ∈ fuseVec vres [] := fmGet_mem _ _ _ hget
  have hsrc := fuseVec_mem vres k e [] hmem
  rcases hsrc with hnil | ⟨r, hr, hrk, hre⟩
  · exact absurd hnil (List.not_mem_nil _)
  obtain ⟨t, htr, hfresh⟩ := fuseTrav_append tres (fuseVec vres [])
  unfold fuse_nodes
  rw [htr]
  refine ⟨?_, e, ?_, ?_, r, hr, hrk, ?_, ?_⟩
  · rw [fmCount_append_fresh _ _ _ hmk hfresh]
    exact hcount
  · rw [fmGet_append _ _ _ hmk]
    exact hget
  · rw [hre]; exact (ventry_fields r).1
  · rw [hre]; exact (ventry_fields r).2
  · cases hn : r.n with
    | node nd =>
      refine ⟨nd, rfl, ?_⟩
      rw [hre]
      unfold ventry
      rw [hn]
    | other =>
      unfold vkey at hrk
      rw [hn] at hrk
      exact absurd hrk (by simp)

/-- Witness for C2 at concrete inputs: the key "A" occurs in both the
vector results and the traversal records; the fused context records it
once, vector-sourced, with the vector score. -/
theorem fusion_keeps_vector_entry_witness :
    fmCount (fuse_nodes vresW tresW) (PVal.str "A") = 1 ∧
    ∃ e, fmGet (fuse_nodes vresW tresW) (PVal.str "A") = some e ∧
      e.source = .vector ∧
      ∃ r ∈ vresW, vkey r = some (PVal.str "A") ∧ e.similarity = r.similarity ∧
        ∃ nd, r.n = RecVal.node nd ∧ e.node = nd :=
  fusion_keeps_vector_entry vresW tresW (PVal.str "A")
    (by decide) (by decide)

/-- Ordered insertion permutes to a cons. -/
theorem insD_perm {α : Type} (r : α → α → Bool) (x : α) (l : List α) :
    List.Perm (insD r x l) (x :: l) := by
  induction l with
  | nil => exact List.Perm.refl _
  | cons y ys ih =>
    unfold insD
    by_cases h : r y x = true
    · rw [if_pos h]
      exact (ih.cons y).trans (List.Perm.swap x y ys)
    · rw [if_neg h]

/-- The insertion sort permutes its input. -/
theorem sortD_perm_aux {α : Type} (r : α → α → Bool) (l : List α) :
    ∀ acc : List α,
      List.Perm (l.foldl (fun a x => insD r x a) acc) (acc ++ l) := by
  induction l with
  | nil => intro acc; simp
  | cons x t ih =>
    intro acc
    have h1 : (x :: t).foldl (fun a x => insD r x a) acc
        = t.foldl (fun a x => insD r x a) (insD r x acc) := rfl
    rw [h1]
    refine ((ih (insD r x acc)).trans ?_)
    refine (((insD_perm r x acc).append_right t).trans ?_)
    exact List.perm_middle.symm

/-- sortD is a permutation of the input. -/
theorem sortD_perm {α : Type} (r : α → α → Bool) (l : List α) :
    List.Perm (sortD r l) l := by
  unfold sortD
  simpa using sortD_perm_aux r l []

/-- Inserting into a sorted list keeps it sorted, provided the
comparison is total and transitive on the elements involved. -/
theorem insD_pairwise {α : Type} (r : α → α → Bool) (P : α → Prop)
    (htot : ∀ a b, P a → P b → r a b = true ∨ r b a = true)
    (htrans : ∀ a b c, P a → P b → P c →
      r a b = true → r b c = true → r a c = true)
    (x : α) (l : List α) (hx : P x) (hl : ∀ y ∈ l, P y)
    (hs : l.Pairwise (fun a b => r a b = true)) :
    (insD r x l).Pairwise (fun a b => r a b = true) := by
  induction l with
  | nil => simp [insD]
  | cons y ys ih =>
    rcases List.pairwise_cons.mp hs with ⟨hy, hys⟩
    unfold insD
    by_cases h : r y x = true
    · rw [if_pos h]
      refine List.pairwise_cons.mpr ⟨?_, ?_⟩
      · intro z hz
        rcases List.mem_cons.mp ((insD_perm r x ys).mem_iff.mp hz) with rfl | hzys
        · exact h
        · exact hy z hzys
      · exact ih (fun z hz => hl z (List.mem_cons_of_mem y hz)) hys
    · rw [if_neg h]
      refine List.pairwise_cons.mpr ⟨?_, hs⟩
      intro z hz
      rcases List.mem_cons.mp hz with hzy | hzys
      · subst hzy
        rcases htot x z hx (hl z (List.mem_cons_self z ys)) with hxz | hzx
        · exact hxz
        · exact absurd hzx h
      · exact htrans x y z hx (hl y (List.mem_cons_self y ys))
          (hl z (List.mem_cons_of_mem y hzys))
          (by rcases htot x y hx (hl y (List.mem_cons_self y ys)) with hxy | hyx
              · exact hxy
              · exact absurd hyx h)
          (hy z hzys)

/-- Folding ordered insertions from a sorted accumulator yields a
sorted list. -/
theorem sortD_pairwise_aux {α : Type} (r : α → α → Bool) (P : α → Prop)
    (htot : ∀ a b, P a → P b → r a b = true ∨ r b a = true)
    (htrans : ∀ a b c, P a → P b → P c →
      r a b = true → r b c = true → r a c = true)
    (l : List α) :
    ∀ acc : List α, (∀ y ∈ acc, P y) → (∀ y ∈ l, P y) →
      acc.Pairwise (fun a b => r a b = true) →
      (l.foldl (fun a x => insD r x a) acc).Pairwise (fun a b => r a b = true) := by
  induction l with
  | nil => intro acc hacc _ hs; exact hs
  | cons x t ih =>
    intro acc hacc hl hs
    have hx : P x := hl x (List.mem_cons_self x t)
    refine ih (insD r x acc) ?_ (fun y hy => hl y (List.mem_cons_of_mem x hy)) ?_
    · intro y hy
      rcases List.mem_cons.mp ((insD_perm r x acc).mem_iff.mp hy) with rfl | hyacc
      · exact hx
      · exact hacc y hyacc
    · exact insD_pairwise r P htot htrans x acc hx hacc hs

/-- sortD sorts, under conditional totality and transitivity. -/
theorem sortD_pairwise {α : Type} (r : α → α → Bool) (P : α → Prop)
    (htot : ∀ a b, P a → P b → r a b = true ∨ r b a = true)
    (htrans : ∀ a b c, P a → P b → P c →
      r a b = true → r b c = true → r a c = true)
    (l : List α) (hl : ∀ y ∈ l, P y) :
    (sortD r l).Pairwise (fun a b => r a b = true) := by
  unfold sortD
  exact sortD_pairwise_aux r P htot htrans l []
    (by intro y hy; exact absurd hy (List.not_mem_nil y)) hl List.Pairwise.nil

/-- The square root of a positive rational is positive. -/
theorem ratSqrt_pos {q : ℚ} (h : 0 < q) : 0 < Real.sqrt (q : ℝ) :=
  Real.sqrt_pos.mpr (by exact_mod_cast h)

/-- Comparing the query-factored similarities reduces to the
cross-multiplied square-root inequality. -/
theorem simQ_le_iff (d1 n1 d2 n2 : ℚ) (h1 : 0 < n1) (h2 : 0 < n2) :
    simQ d2 n2 ≤ simQ d1 n1 ↔
      (d2 : ℝ) * Real.sqrt (n1 : ℝ) ≤ (d1 : ℝ) * Real.sqrt (n2 : ℝ) := by
  unfold simQ
  exact div_le_div_iff₀ (ratSqrt_pos h2) (ratSqrt_pos h1)

/-- The sign-and-squares decision procedure geSimB decides exactly the
real similarity comparison d2 / sqrt n2 ≤ d1 / sqrt n1 for positive
squared norms — the descending order of the stored float similarity. -/
theorem geSimB_iff (d1 n1 d2 n2 : ℚ) (h1 : 0 < n1) (h2 : 0 < n2) :
    geSimB d1 n1 d2 n2 = true ↔ simQ d2 n2 ≤ simQ d1 n1 := by
  rw [simQ_le_iff d1 n1 d2 n2 h1 h2]
  have ht1 : 0 < Real.sqrt (n1 : ℝ) := ratSqrt_pos h1
  have ht2 : 0 < Real.sqrt (n2 : ℝ) := ratSqrt_pos h2
  have hn1 : Real.sqrt (n1 : ℝ) ^ 2 = (n1 : ℝ) := Real.sq_sqrt (by positivity)
  have hn2 : Real.sqrt (n2 : ℝ) ^ 2 = (n2 : ℝ) := Real.sq_sqrt (by positivity)
  unfold geSimB
  by_cases hd1 : 0 ≤ d1
  · rw [if_pos hd1]
    by_cases hd2 : d2 ≤ 0
    · rw [if_pos hd2]
      have hle : (d2 : ℝ) * Real.sqrt (n1 : ℝ) ≤ (d1 : ℝ) * Real.sqrt (n2 : ℝ) :=
        le_trans
          (mul_nonpos_of_nonpos_of_nonneg (by exact_mod_cast hd2) ht1.le)
          (mul_nonneg (by exact_mod_cast hd1) ht2.le)
      simp [hle]
    · have hd2p : 0 < d2 := lt_of_not_ge hd2
      rw [if_neg hd2, decide_eq_true_eq]
      have ha : (0 : ℝ) ≤ (d2 : ℝ) * Real.sqrt (n1 : ℝ) :=
        mul_nonneg (by exact_mod_cast hd2p.le) ht1.le
      have hb : (0 : ℝ) ≤ (d1 : ℝ) * Real.sqrt (n2 : ℝ) :=
        mul_nonneg (by exact_mod_cast hd1) ht2.le
      constructor
      · intro hsq
        apply le_of_pow_le_pow_left₀ two_ne_zero hb
        rw [mul_pow, mul_pow, hn1, hn2]
        exact_mod_cast hsq
      · intro hle
        have hsq := pow_le_pow_left₀ ha hle 2
        rw [mul_pow, mul_pow, hn1, hn2] at hsq
        exact_mod_cast hsq
  · have hd1n : d1 < 0 := lt_of_not_ge hd1
    rw [if_neg hd1]
    by_cases hd2 : 0 ≤ d2
    · rw [if_pos hd2]
      have hlt : (d1 : ℝ) * Real.sqrt (n2 : ℝ) < (d2 : ℝ) * Real.sqrt (n1 : ℝ) :=
        lt_of_lt_of_le
          (mul_neg_of_neg_of_pos (by exact_mod_cast hd1n) ht2)
          (mul_nonneg (by exact_mod_cast hd2) ht1.le)
      simp [not_le.mpr hlt]
    · have hd2n : d2 < 0 := lt_of_not_ge hd2
      rw [if_neg hd2, decide_eq_true_eq]
      have ha : (0 : ℝ) ≤ -((d2 : ℝ) * Real.sqrt (n1 : ℝ)) :=
        neg_nonneg.mpr (mul_neg_of_neg_of_pos (by exact_mod_cast hd2n) ht1).le
      have hb : (0 : ℝ) ≤ -((d1 : ℝ) * Real.sqrt (n2 : ℝ)) :=
        neg_nonneg.mpr (mul_neg_of_neg_of_pos (by exact_mod_cast hd1n) ht2).le
      constructor
      · intro hsq
        have hAB : -((d1 : ℝ) * Real.sqrt (n2 : ℝ)) ≤
            -((d2 : ℝ) * Real.sqrt (n1 : ℝ)) := by
          apply le_of_pow_le_pow_left₀ two_ne_zero ha
          rw [neg_sq, neg_sq, mul_pow, mul_pow, hn1, hn2]
          exact_mod_cast hsq
        linarith
      · intro hle
        have hAB : -((d1 : ℝ) * Real.sqrt (n2 : ℝ)) ≤
            -((d2 : ℝ) * Real.sqrt (n1 : ℝ)) := by linarith
        have hsq := pow_le_pow_left₀ hb hAB 2
        rw [neg_sq, neg_sq, mul_pow, mul_pow, hn1, hn2] at hsq
        exact_mod_cast hsq

/-- Whichever branch the comparator takes, ordB implies the similarity
comparison. -/
theorem ordB_to_ge (a b : VCand) (h : ordB a b = true) :
    geSimB a.d a.nn b.d b.nn = true := by
  unfold ordB at h
  by_cases hc : (geSimB a.d a.nn b.d b.nn && geSimB b.d b.nn a.d a.nn) = true
  · exact (Bool.and_eq_true_iff.mp hc).1
  · rw [if_neg hc] at h
    exact h

/-- The comparator is total on positive squared norms. -/
theorem ordB_total (a b : VCand) (ha : 0 < a.nn) (hb : 0 < b.nn) :
    ordB a b = true ∨ ordB b a = true := by
  unfold ordB
  by_cases he : (geSimB a.d a.nn b.d b.nn && geSimB b.d b.nn a.d a.nn) = true
  · have he2 : (geSimB b.d b.nn a.d a.nn && geSimB a.d a.nn b.d b.nn) = true := by
      rw [Bool.and_comm]; exact he
    rw [if_pos he, if_pos he2]
    rcases Nat.le_total a.idx b.idx with h | h
    · exact Or.inl (decide_eq_true h)
    · exact Or.inr (decide_eq_true h)
  · rw [if_neg he]
    by_cases hab : geSimB a.d a.nn b.d b.nn = true
    · exact Or.inl hab
    · have hba : geSimB b.d b.nn a.d a.nn = true := by
        rw [geSimB_iff b.d b.nn a.d a.nn hb ha]
        rcases le_total (simQ a.d a.nn) (simQ b.d b.nn) with h | h
        · exact h
        · exact absurd ((geSimB_iff a.d a.nn b.d b.nn ha hb).mpr h) hab
      have he2 : ¬ (geSimB b.d b.nn a.d a.nn && geSimB a.d a.nn b.d b.nn) = true := by
        rw [Bool.and_comm]; exact he
      rw [if_neg he2]
      exact Or.inr hba

/-- The comparator is transitive on positive squared norms. -/
theorem ordB_trans (a b c : VCand) (ha : 0 < a.nn) (hb : 0 < b.nn)
    (hc : 0 < c.nn) (hab : ordB a b = true) (hbc : ordB b c = true) :
    ordB a c = true := by
  have gab : geSimB a.d a.nn b.d b.nn = true := ordB_to_ge a b hab
  have gbc : geSimB b.d b.nn c.d c.nn = true := ordB_to_ge b c hbc
  have sab : simQ b.d b.nn ≤ simQ a.d a.nn := (geSimB_iff _ _ _ _ ha hb).mp gab
  have sbc : simQ c.d c.nn ≤ simQ b.d b.nn := (geSimB_iff _ _ _ _ hb hc).mp gbc
  have sac : simQ c.d c.nn ≤ simQ a.d a.nn := le_trans sbc sab
  have gac : geSimB a.d a.nn c.d c.nn = true := (geSimB_iff _ _ _ _ ha hc).mpr sac
  unfold ordB
  by_cases hca : geSimB c.d c.nn a.d a.nn = true
  · have sca : simQ a.d a.nn ≤ simQ c.d c.nn := (geSimB_iff _ _ _ _ hc ha).mp hca
    have hba : simQ a.d a.nn ≤ simQ b.d b.nn := le_trans sca sbc
    have hcb : simQ b.d b.nn ≤ simQ c.d c.nn := le_trans sab sca
    have gba : geSimB b.d b.nn a.d a.nn = true := (geSimB_iff _ _ _ _ hb ha).mpr hba
    have gcb : geSimB c.d c.nn b.d b.nn = true := (geSimB_iff _ _ _ _ hc hb).mpr hcb
    have hiab : a.idx ≤ b.idx := by
      unfold ordB at hab
      rw [if_pos (by rw [gab, gba]; rfl)] at hab
      exact of_decide_eq_true hab
    have hibc : b.idx ≤ c.idx := by
      unfold ordB at hbc
      rw [if_pos (by rw [gbc, gcb]; rfl)] at hbc
      exact of_decide_eq_true hbc
    rw [if_pos (by rw [gac, hca]; rfl)]
    exact decide_eq_true (le_trans hiab hibc)
  · have hca2 : geSimB c.d c.nn a.d a.nn = false := Bool.not_eq_true _ |>.mp hca
    rw [if_neg (by rw [gac, hca2]; simp)]
    exact gac

/-- Inverting a successful embedding extraction: the record is a node
carrying a non-empty, length-matching vector embedding. -/
theorem recNodeEmb_some (qv : List ℚ) (r : RecVal) (nd : NList) (v : List ℚ)
    (h : recNodeEmb qv r = some (nd, v)) :
    r = .node nd ∧ nodeGet nd "embedding" = some (.vec v) ∧
      v ≠ [] ∧ v.length = qv.length := by
  cases r with
  | other => exact absurd h (by simp [recNodeEmb])
  | node nd2 =>
    cases hv : nodeGet nd2 "embedding" with
    | none => simp only [recNodeEmb, hv] at h; exact Option.noConfusion h
    | some pv =>
      cases pv with
      | str s => simp only [recNodeEmb, hv] at h; exact Option.noConfusion h
      | num q => simp only [recNodeEmb, hv] at h; exact Option.noConfusion h
      | null => simp only [recNodeEmb, hv] at h; exact Option.noConfusion h
      | vec v2 =>
        simp only [recNodeEmb, hv] at h
        by_cases hcond : v2 ≠ [] ∧ v2.length = qv.length
        · rw [if_pos hcond] at h
          have hnd : nd2 = nd := congrArg Prod.fst (Option.some_injective _ h)
          have hvv : v2 = v := congrArg Prod.snd (Option.some_injective _ h)
          subst hnd
          subst hvv
          exact ⟨rfl, hv, hcond.1, hcond.2⟩
        · rw [if_neg hcond] at h
          exact absurd h (by simp)

/-- The candidate entry keeps the encounter index. -/
theorem candOf_idx (qv : List ℚ) (p : ℕ × RecVal) : (candOf qv p).idx = p.1 := by
  unfold candOf
  cases h : recNodeEmb qv p.2 with
  | none => rfl
  | some nv => rfl

/-- Everything vector_search keeps satisfies the filter: positive query
norm and a usable, non-empty, length-matching, positive-norm embedding,
with the stored dot product and squared norm computed from it. -/
theorem mem_candidates (qv : List ℚ) (recs : List RecVal) (c : VCand)
    (h : c ∈ candidates qv recs) :
    0 < dotQ qv qv ∧ 0 < c.nn ∧
      ∃ v, nodeGet c.node "embedding" = some (.vec v) ∧ v ≠ [] ∧
        v.length = qv.length ∧ c.d = dotQ qv v ∧ c.nn = dotQ v v := by
  unfold candidates at h
  rcases List.mem_map.mp h with ⟨p, hp, hpc⟩
  have hg : goodB qv p.2 = true := (List.mem_filter.mp hp).2
  unfold goodB at hg
  cases hr : recNodeEmb qv p.2 with
  | none => rw [hr] at hg; exact absurd hg (by simp)
  | some nv =>
    rw [hr] at hg
    obtain ⟨nd, v⟩ := nv
    simp only [Bool.and_eq_true, decide_eq_true_eq] at hg
    obtain ⟨hq, hn⟩ := hg
    obtain ⟨-, hemb, hne, hlen⟩ := recNodeEmb_some qv p.2 nd v hr
    have hcval : c = ⟨p.1, nd, dotQ qv v, dotQ v v⟩ := by
      rw [← hpc]
      unfold candOf
      rw [hr]
    subst hcval
    exact ⟨hq, hn, v, hemb, hne, hlen, rfl, rfl⟩

/-- Candidate encounter indices are distinct. -/
theorem candidates_idx_nodup (qv : List ℚ) (recs : List RecVal) :
    ((candidates qv recs).map VCand.idx).Nodup := by
  unfold candidates
  rw [List.map_map]
  have hfun : (VCand.idx ∘ candOf qv) = (Prod.fst : ℕ × RecVal → ℕ) :=
    funext fun p => candOf_idx qv p
  rw [hfun]
  have hsub : ((recs.enum.filter fun p => goodB qv p.2).map Prod.fst).Sublist
      (recs.enum.map Prod.fst) := (List.filter_sublist _).map Prod.fst
  have hrange : (recs.enum.map Prod.fst) = List.range recs.length :=
    List.enum_map_fst recs
  rw [hrange] at hsub
  exact List.Nodup.sublist hsub (List.nodup_range recs.length)

/-- The stored similarity of the claim formula factors through simQ by
the common positive query-norm divisor. -/
theorem simR_eq (qv : List ℚ) (c : VCand) :
    simR qv c = simQ c.d c.nn / Real.sqrt ((dotQ qv qv : ℚ) : ℝ) := by
  unfold simR simQ
  rw [div_div]
  rw [mul_comm]

/-- C6: for every query vector, record list and k, vector search
returns at most k results, ordered descending by the real cosine
similarity d / (sqrt(dot q q) * sqrt(dot v v)) with ties broken by
ascending encounter index, and every returned entry passed the filter:
positive query norm and a present, vector-shaped, non-empty,
length-matching, positive-norm embedding (candidates with a missing,
non-numeric or zero-norm vector are silently skipped, never returned
and never an error — the function is total). -/
theorem vector_search_ranked (qv : List ℚ) (recs : List RecVal) (k : ℕ) :
    (vector_search qv recs k).length ≤ k ∧
    (vector_search qv recs k).Pairwise
      (fun a b => simR qv b ≤ simR qv a ∧
        (simR qv a = simR qv b → a.idx < b.idx)) ∧
    (∀ c ∈ vector_search qv recs k, 0 < dotQ qv qv ∧ 0 < c.nn ∧
      ∃ v, nodeGet c.node "embedding" = some (.vec v) ∧ v ≠ [] ∧
        v.length = qv.length ∧ c.d = dotQ qv v ∧ c.nn = dotQ v v) := by
  have hsubset : ∀ c ∈ vector_search qv recs k, c ∈ candidates qv recs := by
    intro c hcmem
    unfold vector_search at hcmem
    exact ((sortD_perm ordB (candidates qv recs)).mem_iff).mp
      (List.take_subset k _ hcmem)
  refine ⟨List.length_take_le k _, ?_,
    fun c hc => mem_candidates qv recs c (hsubset c hc)⟩
  have hP : ∀ y ∈ candidates qv recs, 0 < y.nn :=
    fun y hy => (mem_candidates qv recs y hy).2.1
  have hsorted : (sortD ordB (candidates qv recs)).Pairwise
      (fun a b => ordB a b = true) :=
    sortD_pairwise ordB (fun y => 0 < y.nn)
      (fun a b ha hb => ordB_total a b ha hb)
      (fun a b c ha hb hc hab hbc => ordB_trans a b c ha hb hc hab hbc) _ hP
  have hsorted_out : (vector_search qv recs k).Pairwise
      (fun a b => ordB a b = true) := hsorted.sublist (List.take_sublist k _)
  have hnodup_sort : ((sortD ordB (candidates qv recs)).map VCand.idx).Nodup := by
    have hperm := (sortD_perm ordB (candidates qv recs)).map VCand.idx
    exact hperm.nodup_iff.mpr (candidates_idx_nodup qv recs)
  have hnodup_out : ((vector_search qv recs k).map VCand.idx).Nodup := by
    unfold vector_search
    exact List.Nodup.sublist ((List.take_sublist k _).map VCand.idx) hnodup_sort
  have hidx : (vector_search qv recs k).Pairwise (fun a b => a.idx ≠ b.idx) :=
    List.pairwise_map.mp hnodup_out
  refine (hsorted_out.and hidx).imp_of_mem ?_
  intro a b hamem hbmem hab
  obtain ⟨hord, hne⟩ := hab
  have hfa := mem_candidates qv recs a (hsubset a hamem)
  have hfb := mem_candidates qv recs b (hsubset b hbmem)
  have hq : 0 < dotQ qv qv := hfa.1
  have hna : 0 < a.nn := hfa.2.1
  have hnb : 0 < b.nn := hfb.2.1
  have hsq : 0 < Real.sqrt ((dotQ qv qv : ℚ) : ℝ) := ratSqrt_pos hq
  have hra := simR_eq qv a
  have hrb := simR_eq qv b
  unfold ordB at hord
  by_cases hcond : (geSimB a.d a.nn b.d b.nn && geSimB b.d b.nn a.d a.nn) = true
  · obtain ⟨gab, gba⟩ := Bool.and_eq_true_iff.mp hcond
    have h1 : simQ b.d b.nn ≤ simQ a.d a.nn := (geSimB_iff _ _ _ _ hna hnb).mp gab
    have h2 : simQ a.d a.nn ≤ simQ b.d b.nn := (geSimB_iff _ _ _ _ hnb hna).mp gba
    have heq : simQ a.d a.nn = simQ b.d b.nn := le_antisymm h2 h1
    rw [if_pos hcond] at hord
    have hidxle : a.idx ≤ b.idx := of_decide_eq_true hord
    constructor
    · rw [hra, hrb, heq]
    · intro _
      exact lt_of_le_of_ne hidxle hne
  · rw [if_neg hcond] at hord
    have h1 : simQ b.d b.nn ≤ simQ a.d a.nn := (geSimB_iff _ _ _ _ hna hnb).mp hord
    constructor
    · rw [hra, hrb]
      exact (div_le_div_iff_of_pos_right hsq).mpr h1
    · intro heqR
      rw [hra, hrb] at heqR
      have hcne : Real.sqrt ((dotQ qv qv : ℚ) : ℝ) ≠ 0 := hsq.ne'
      have heq : simQ a.d a.nn = simQ b.d b.nn := by
        field_simp [hcne] at heqR
        exact heqR
      have gba : geSimB b.d b.nn a.d a.nn = true :=
        (geSimB_iff _ _ _ _ hnb hna).mpr (le_of_eq heq)
      exact absurd (by rw [hord, gba]; rfl) hcond

/-- Witness for C6 at a concrete input: the single qualifying record is
returned and satisfies every filter property. -/
theorem vector_search_ranked_witness :
    0 < dotQ [1] [1] ∧ 0 < cand0.nn ∧
      ∃ v, nodeGet cand0.node "embedding" = some (.vec v) ∧ v ≠ [] ∧
        v.length = ([1] : List ℚ).length ∧ cand0.d = dotQ [1] v ∧
        cand0.nn = dotQ v v := by
  have hemb : recNodeEmb [1] (RecVal.node nd0) = some (nd0, [1]) := by
    simp [recNodeEmb, nodeGet, nd0]
  have hdot : dotQ [(1 : ℚ)] [1] = 1 := by norm_num [dotQ]
  have hgood : goodB [1] (RecVal.node nd0) = true := by
    simp [goodB, hemb, hdot]
  have hcands : candidates [1] [RecVal.node nd0] = [cand0] := by
    unfold candidates
    have henum : ([RecVal.node nd0] : List RecVal).enum = [(0, RecVal.node nd0)] := rfl
    rw [henum]
    simp only [List.filter_cons, hgood, if_true, List.filter_nil, List.map_cons,
      List.map_nil]
    unfold candOf
    rw [hemb]
    simp [hdot, cand0]
  have hvs : vector_search [1] [RecVal.node nd0] 2 = [cand0] := by
    unfold vector_search
    rw [hcands]
    rfl
  have hmem : cand0 ∈ vector_search [1] [RecVal.node nd0] 2 := by
    rw [hvs]
    exact List.mem_cons_self cand0 []
  exact (vector_search_ranked [1] [RecVal.node nd0] 2).2.2 cand0 hmem
